import Mathlib

/-!
Verification of the tomldir configuration library: a shallow embedding of
the flattening algorithm (`flatten_value` in `src/config.rs`), the map-like
store (`src/store.rs`), and the `Config` read surface, together with proofs
of the specified properties.

Machine strings are modelled by Lean `String`; the TOML tree value
(external `toml::Value`) is modelled by the inductive `Value` below; the
backing store (a `HashMap<String, Value>` under insert/get/iter) is
modelled by an association list together with an overwrite-on-insert
`insertKV` operation, so that the store obtained by the imperative walk is
`applyInserts [] (flatten_value pre v)` where `flatten_value pre v` is the
sequence of insertions the walk performs, in call order.
-/

namespace Tomldir

/-- TOML tree value, mirroring the external `toml::Value` type consumed by
`src/config.rs`: tables (ordered name/value pairs), arrays, and the scalar
variants. Modelled from the spec: floats and datetimes are external scalar
payloads on which the system performs no arithmetic, so they are carried as
their canonical display text. -/
inductive Value where
  | str (s : String)
  | int (n : Int)
  | float (lit : String)
  | bool (b : Bool)
  | datetime (lit : String)
  | arr (vs : List Value)
  | table (kvs : List (String × Value))

/-- Mirrors `toml::Value::is_table`. -/
def Value.is_table : Value → Bool
  | .table _ => true
  | _ => false

/-- Mirrors `array.first().is_some_and(Value::is_table)` in `flatten_value`. -/
def first_is_table (vs : List Value) : Bool :=
  match vs with
  | [] => false
  | v :: _ => v.is_table

/-- Decimal digit characters of a natural number, most significant first:
the rendering performed by `format!("{i}")` on an array index. -/
def decRepr (n : Nat) : List Char :=
  if n < 10 then [Nat.digitChar n]
  else decRepr (n / 10) ++ [Nat.digitChar (n % 10)]
decreasing_by simp_wf; omega

/-- The decimal string of a natural number (array index rendering). -/
def natStr (n : Nat) : String := ⟨decRepr n⟩

mutual

/-- Recursively flatten a TOML value into dot-separated keys, translated
from `flatten_value` in `src/config.rs`. The result is the list of
`store.insert(key, value)` calls the Rust walk performs, in call order. -/
def flatten_value (pre : String) (v : Value) : List (String × Value) :=
  match v with
  | .table kvs => flatten_table pre kvs
  | .arr vs =>
      if first_is_table vs then flatten_arr pre 0 vs
      else if pre = "" then [] else [(pre, .arr vs)]
  | other => if pre = "" then [] else [(pre, other)]
termination_by sizeOf v
decreasing_by all_goals (simp_wf <;> omega)

/-- The table arm of `flatten_value`: iterate the entries in order; child
key is `k` when the prefix is empty and `pre ++ "." ++ k` otherwise. -/
def flatten_table (pre : String) (kvs : List (String × Value)) : List (String × Value) :=
  match kvs with
  | [] => []
  | (k, v) :: rest =>
      flatten_value (if pre = "" then k else pre ++ "." ++ k) v ++ flatten_table pre rest
termination_by sizeOf kvs
decreasing_by all_goals (simp_wf <;> omega)

/-- The array-of-tables arm of `flatten_value`: element `i` is recursed
into with prefix `pre ++ "[" ++ i ++ "]"`. -/
def flatten_arr (pre : String) (i : Nat) (vs : List Value) : List (String × Value) :=
  match vs with
  | [] => []
  | v :: rest =>
      flatten_value (pre ++ "[" ++ natStr i ++ "]") v ++ flatten_arr pre (i + 1) rest
termination_by sizeOf vs
decreasing_by all_goals (simp_wf <;> omega)

end

/-- `HashMap::insert`: overwrite the value when the key is present,
otherwise add the entry. -/
def insertKV (s : List (String × Value)) (k : String) (v : Value) : List (String × Value) :=
  if s.any (fun e => e.1 = k) then s.map (fun e => if e.1 = k then (k, v) else e)
  else s ++ [(k, v)]

/-- Run a sequence of insertions against a store. -/
def applyInserts (s : List (String × Value)) (ins : List (String × Value)) :
    List (String × Value) :=
  ins.foldl (fun st e => insertKV st e.1 e.2) s

/-- `HashMap::get` / `Store::get`: exact string match. -/
def storeGet (s : List (String × Value)) (k : String) : Option Value :=
  (s.find? (fun e => e.1 = k)).map (·.2)

/-- Mirrors `toml::Value::as_str`: the string payload, absent otherwise. -/
def Value.as_str : Value → Option String
  | .str s => some s
  | _ => none

/-- Mirrors `toml::Value::as_integer`. -/
def Value.as_integer : Value → Option Int
  | .int n => some n
  | _ => none

/-- Mirrors `toml::Value::as_float`; the payload is the modelled float carrier. -/
def Value.as_float : Value → Option String
  | .float lit => some lit
  | _ => none

/-- Mirrors `toml::Value::as_bool`. -/
def Value.as_bool : Value → Option Bool
  | .bool b => some b
  | _ => none

/-- Decimal string of an integer, as rendered by `format!("{n}")`. -/
def intStr (n : Int) : String :=
  if n < 0 then "-" ++ natStr n.natAbs else natStr n.natAbs

mutual

/-- Modelled from the spec: the external `Display` implementation of
`toml::Value` ("the value type's canonical display form"): integers and
booleans in their literal form (`true` renders as the string "true"),
floats and datetimes as their canonical literal text, strings re-quoted,
arrays bracketed and comma-separated. -/
def Value.display : Value → String
  | .str s => "\"" ++ s ++ "\""
  | .int n => intStr n
  | .float lit => lit
  | .bool b => if b then "true" else "false"
  | .datetime lit => lit
  | .arr vs => "[" ++ displayList vs ++ "]"
  | .table kvs => "\x7b " ++ displayTable kvs ++ " \x7d"
termination_by v => sizeOf v
decreasing_by all_goals (simp_wf <;> omega)

/-- Comma-separated display of array elements. -/
def displayList : List Value → String
  | [] => ""
  | [v] => v.display
  | v :: rest => v.display ++ ", " ++ displayList rest
termination_by vs => sizeOf vs
decreasing_by all_goals (simp_wf <;> omega)

/-- Comma-separated display of inline-table entries. -/
def displayTable : List (String × Value) → String
  | [] => ""
  | [(k, v)] => k ++ " = " ++ v.display
  | (k, v) :: rest => k ++ " = " ++ v.display ++ ", " ++ displayTable rest
termination_by kvs => sizeOf kvs
decreasing_by all_goals (simp_wf <;> omega)

end

/-- The `Config` read surface of `src/config.rs`: one populated store.
The `Arc` wrapper only shares ownership and is not modelled. -/
structure Config where
  store : List (String × Value)

/-- `Config::get`: direct store lookup. -/
def Config.get (c : Config) (key : String) : Option Value :=
  storeGet c.store key

/-- `Config::get_string` (from the `impl_getters!` macro):
`self.get(key).and_then(Value::as_str)`. -/
def Config.get_string (c : Config) (key : String) : Option String :=
  (c.get key).bind Value.as_str

/-- `Config::get_int`: `self.get(key).and_then(Value::as_integer)`. -/
def Config.get_int (c : Config) (key : String) : Option Int :=
  (c.get key).bind Value.as_integer

/-- `Config::get_float`: `self.get(key).and_then(Value::as_float)`. -/
def Config.get_float (c : Config) (key : String) : Option String :=
  (c.get key).bind Value.as_float

/-- `Config::get_bool`: `self.get(key).and_then(Value::as_bool)`. -/
def Config.get_bool (c : Config) (key : String) : Option Bool :=
  (c.get key).bind Value.as_bool

/-- `Config::flatten`: every store entry with its value rendered to a
string; `v.as_str()` keeps the raw string content, everything else goes
through `v.to_string()` (the display form). -/
def Config.flatten (c : Config) : List (String × String) :=
  c.store.map (fun e => (e.1, (e.2.as_str).getD e.2.display))

/-- The error enumeration of `src/error.rs` (variants relevant to
`from_toml_with`). -/
inductive ConfigError where
  | io (msg : String)
  | toml (msg : String)

/-- `Config::from_toml_with`: run the external parser, then flatten from
the empty prefix into a fresh store. The parser is an explicit argument
(external collaborator). -/
def from_toml_with (parse : String → Except String Value) (content : String) :
    Except ConfigError Config :=
  match parse content with
  | .error e => .error (.toml e)
  | .ok root => .ok ⟨applyInserts [] (flatten_value "" root)⟩

/-- One segment of a tree path: descent into a table field or into an
array-of-tables element. -/
inductive Seg where
  | fld (s : String)
  | idx (n : Nat)

mutual

/-- The leaf positions of a tree value, each with its segment path from
the root: scalars and primitive arrays are leaves; tables and
table-first arrays are descended into (the same peek-first-element
policy the flattener applies, stated on the tree rather than on key
strings). -/
def leaves : Value → List (List Seg × Value)
  | .table kvs => leaves_table kvs
  | .arr vs => if first_is_table vs then leaves_arr 0 vs else [([], .arr vs)]
  | v => [([], v)]
termination_by v => sizeOf v
decreasing_by all_goals (simp_wf <;> omega)

/-- Leaves of a table's entries, in entry order. -/
def leaves_table : List (String × Value) → List (List Seg × Value)
  | [] => []
  | (k, v) :: rest => (leaves v).map (fun e => (.fld k :: e.1, e.2)) ++ leaves_table rest
termination_by kvs => sizeOf kvs
decreasing_by all_goals (simp_wf <;> omega)

/-- Leaves of a table-first array's elements, indexed from `i`. -/
def leaves_arr (i : Nat) : List Value → List (List Seg × Value)
  | [] => []
  | v :: rest => (leaves v).map (fun e => (.idx i :: e.1, e.2)) ++ leaves_arr (i + 1) rest
termination_by vs => sizeOf vs
decreasing_by all_goals (simp_wf <;> omega)

end

/-- Key-string encoding of a path continued from a non-empty prefix:
a field descent contributes `"." ++ name`, an index descent contributes
`"[" ++ i ++ "]"`. -/
def encCont : List Seg → String
  | [] => ""
  | .fld s :: ps => "." ++ s ++ encCont ps
  | .idx n :: ps => "[" ++ natStr n ++ "]" ++ encCont ps

/-- Key-string encoding of a full path from the root: the leading field
name carries no dot. -/
def encHead : List Seg → String
  | [] => ""
  | .fld s :: ps => s ++ encCont ps
  | .idx n :: ps => "[" ++ natStr n ++ "]" ++ encCont ps

/-- The field names along an all-field path. -/
def fldNames : List Seg → List String
  | [] => []
  | .fld s :: ps => s :: fldNames ps
  | .idx _ :: ps => fldNames ps

/-- Dot-joined path of field names, as the spec words it. -/
def dotJoined (p : List Seg) : String :=
  String.intercalate "." (fldNames p)

end Tomldir

namespace Tomldir

@[simp] theorem flatten_value_str (pre : String) (s : String) :
    flatten_value pre (.str s) = if pre = "" then [] else [(pre, .str s)] := by
  rw [flatten_value] <;> exact fun _ h => nomatch h

@[simp] theorem flatten_value_int (pre : String) (n : Int) :
    flatten_value pre (.int n) = if pre = "" then [] else [(pre, .int n)] := by
  rw [flatten_value] <;> exact fun _ h => nomatch h

@[simp] theorem flatten_value_float (pre : String) (lit : String) :
    flatten_value pre (.float lit) = if pre = "" then [] else [(pre, .float lit)] := by
  rw [flatten_value] <;> exact fun _ h => nomatch h

@[simp] theorem flatten_value_bool (pre : String) (b : Bool) :
    flatten_value pre (.bool b) = if pre = "" then [] else [(pre, .bool b)] := by
  rw [flatten_value] <;> exact fun _ h => nomatch h

@[simp] theorem flatten_value_datetime (pre : String) (lit : String) :
    flatten_value pre (.datetime lit) = if pre = "" then [] else [(pre, .datetime lit)] := by
  rw [flatten_value] <;> exact fun _ h => nomatch h

@[simp] theorem flatten_value_table_eq (pre : String) (kvs : List (String × Value)) :
    flatten_value pre (.table kvs) = flatten_table pre kvs := by
  rw [flatten_value]

@[simp] theorem flatten_value_arr (pre : String) (vs : List Value) :
    flatten_value pre (.arr vs) =
      if first_is_table vs then flatten_arr pre 0 vs
      else if pre = "" then [] else [(pre, .arr vs)] := by
  rw [flatten_value]

@[simp] theorem flatten_table_nil (pre : String) : flatten_table pre [] = [] := by
  rw [flatten_table]

@[simp] theorem flatten_table_cons (pre k : String) (v : Value)
    (rest : List (String × Value)) :
    flatten_table pre ((k, v) :: rest) =
      flatten_value (if pre = "" then k else pre ++ "." ++ k) v ++ flatten_table pre rest := by
  rw [flatten_table]

@[simp] theorem flatten_arr_nil (pre : String) (i : Nat) : flatten_arr pre i [] = [] := by
  rw [flatten_arr]

@[simp] theorem flatten_arr_cons (pre : String) (i : Nat) (v : Value) (rest : List Value) :
    flatten_arr pre i (v :: rest) =
      flatten_value (pre ++ "[" ++ natStr i ++ "]") v ++ flatten_arr pre (i + 1) rest := by
  rw [flatten_arr]

@[simp] theorem leaves_str (s : String) : leaves (.str s) = [([], .str s)] := by
  rw [leaves] <;> exact fun _ h => nomatch h

@[simp] theorem leaves_int (n : Int) : leaves (.int n) = [([], .int n)] := by
  rw [leaves] <;> exact fun _ h => nomatch h

@[simp] theorem leaves_float (lit : String) : leaves (.float lit) = [([], .float lit)] := by
  rw [leaves] <;> exact fun _ h => nomatch h

@[simp] theorem leaves_bool (b : Bool) : leaves (.bool b) = [([], .bool b)] := by
  rw [leaves] <;> exact fun _ h => nomatch h

@[simp] theorem leaves_datetime (lit : String) :
    leaves (.datetime lit) = [([], .datetime lit)] := by
  rw [leaves] <;> exact fun _ h => nomatch h

@[simp] theorem leaves_table_eq (kvs : List (String × Value)) :
    leaves (.table kvs) = leaves_table kvs := by
  rw [leaves]

@[simp] theorem leaves_arr_eq (vs : List Value) :
    leaves (.arr vs) =
      if first_is_table vs then leaves_arr 0 vs else [([], .arr vs)] := by
  rw [leaves]

@[simp] theorem leaves_table_nil : leaves_table [] = [] := by rw [leaves_table]

@[simp] theorem leaves_table_cons (k : String) (v : Value) (rest : List (String × Value)) :
    leaves_table ((k, v) :: rest) =
      (leaves v).map (fun e => (.fld k :: e.1, e.2)) ++ leaves_table rest := by
  rw [leaves_table]

@[simp] theorem leaves_arr_nil (i : Nat) : leaves_arr i [] = [] := by rw [leaves_arr]

@[simp] theorem leaves_arr_cons (i : Nat) (v : Value) (rest : List Value) :
    leaves_arr i (v :: rest) =
      (leaves v).map (fun e => (.idx i :: e.1, e.2)) ++ leaves_arr (i + 1) rest := by
  rw [leaves_arr]

/-- Strong induction over tree values, descending through arrays and
tables (the nested-list induction principle the recursive walk needs). -/
theorem Value.strongInd {P : Value → Prop}
    (hstr : ∀ s, P (.str s)) (hint : ∀ n, P (.int n))
    (hflt : ∀ l, P (.float l)) (hbool : ∀ b, P (.bool b))
    (hdt : ∀ l, P (.datetime l))
    (harr : ∀ vs, (∀ v ∈ vs, P v) → P (.arr vs))
    (htab : ∀ kvs, (∀ kv ∈ kvs, P kv.2) → P (.table kvs)) :
    ∀ v, P v
  | .str s => hstr s
  | .int n => hint n
  | .float l => hflt l
  | .bool b => hbool b
  | .datetime l => hdt l
  | .arr vs => harr vs (fun v hv =>
      Value.strongInd hstr hint hflt hbool hdt harr htab v)
  | .table kvs => htab kvs (fun kv hkv =>
      Value.strongInd hstr hint hflt hbool hdt harr htab kv.2)
termination_by v => sizeOf v
decreasing_by
  · have h1 := List.sizeOf_lt_of_mem hv
    simp only [Value.arr.sizeOf_spec]
    omega
  · obtain ⟨a, b⟩ := kv
    have h1 := List.sizeOf_lt_of_mem hkv
    simp only [Prod.mk.sizeOf_spec, Value.table.sizeOf_spec] at *
    omega

/-- Appending a non-empty string moves a string strictly away from itself. -/
theorem append_ne_left (p s : String) (h : s ≠ "") : p ++ s ≠ p := by
  intro he
  apply h
  have hd := congrArg String.data he
  rw [String.data_append] at hd
  have : s.data = [] := by
    have := congrArg List.length hd
    simp at this
    exact List.eq_nil_of_length_eq_zero this
  exact String.ext this

/-- A bracketed index key is never the empty string. -/
theorem bracket_key_ne_empty (p : String) (i : Nat) :
    p ++ "[" ++ natStr i ++ "]" ≠ "" := by
  intro he
  have hd := congrArg String.data he
  simp only [String.data_append] at hd
  have := congrArg List.length hd
  simp at this

/-- A bracketed index key differs from the bare prefix. -/
theorem bracket_key_ne_pre (p : String) (i : Nat) (t : String) :
    p ++ "[" ++ natStr i ++ "]" ++ t ≠ p := by
  have h1 : p ++ "[" ++ natStr i ++ "]" ++ t = p ++ ("[" ++ natStr i ++ "]" ++ t) := by
    simp [String.append_assoc]
  rw [h1]
  apply append_ne_left
  intro he
  have hd := congrArg String.data he
  simp only [String.data_append] at hd
  have := congrArg List.length hd
  simp at this

/-- A value that is neither a table nor an array: the scalar arm of the
flattener's match. -/
def Value.is_scalar : Value → Bool
  | .arr _ => false
  | .table _ => false
  | _ => true

/-- The flattener's behaviour on every scalar in one statement. -/
theorem flatten_value_scalar (pre : String) (v : Value) (h : v.is_scalar = true) :
    flatten_value pre v = if pre = "" then [] else [(pre, v)] := by
  cases v <;> simp_all [Value.is_scalar]

/-- Leaves of every scalar in one statement. -/
theorem leaves_scalar (v : Value) (h : v.is_scalar = true) :
    leaves v = [([], v)] := by
  cases v <;> simp_all [Value.is_scalar]

/-- Keys produced inside a table-first array all extend the prefix,
provided the element flattenings do. -/
theorem flatten_arr_key_extends (vs : List Value)
    (ih : ∀ v ∈ vs, ∀ (pre : String) (e : String × Value),
      e ∈ flatten_value pre v → ∃ t : String, e.1 = pre ++ t) :
    ∀ (pre : String) (i : Nat) (e : String × Value), e ∈ flatten_arr pre i vs →
      ∃ t : String, e.1 = pre ++ t := by
  induction vs with
  | nil => simp
  | cons v rest ihrest =>
      intro pre i e he
      rw [flatten_arr_cons] at he
      rcases List.mem_append.mp he with h | h
      · obtain ⟨t, ht⟩ := ih v (by simp) _ _ h
        exact ⟨"[" ++ natStr i ++ "]" ++ t, by rw [ht]; simp [String.append_assoc]⟩
      · exact ihrest (fun w hw => ih w (by simp [hw])) pre (i + 1) e h

/-- Keys produced inside a table all extend the prefix, provided the
entry flattenings do. -/
theorem flatten_table_key_extends (kvs : List (String × Value))
    (ih : ∀ kv ∈ kvs, ∀ (pre : String) (e : String × Value),
      e ∈ flatten_value pre kv.2 → ∃ t : String, e.1 = pre ++ t) :
    ∀ (pre : String) (e : String × Value), e ∈ flatten_table pre kvs →
      ∃ t : String, e.1 = pre ++ t := by
  induction kvs with
  | nil => simp
  | cons kv rest ihrest =>
      intro pre e he
      obtain ⟨k, v⟩ := kv
      rw [flatten_table_cons] at he
      rcases List.mem_append.mp he with h | h
      · obtain ⟨t, ht⟩ := ih (k, v) (by simp) _ _ h
        by_cases hp : pre = ""
        · subst hp
          simp only [if_pos rfl] at ht
          exact ⟨k ++ t, by rw [ht]; simp [String.empty_append]⟩
        · simp only [if_neg hp] at ht
          exact ⟨"." ++ k ++ t, by rw [ht]; simp [String.append_assoc]⟩
      · exact ihrest (fun w hw => ih w (by simp [hw])) pre e h

/-- Every key the flattener inserts extends the prefix it was called with. -/
theorem flatten_key_extends (v : Value) :
    ∀ (pre : String) (e : String × Value), e ∈ flatten_value pre v →
      ∃ t : String, e.1 = pre ++ t := by
  induction v using Value.strongInd with
  | harr vs ih =>
      intro pre e he
      rw [flatten_value_arr] at he
      split at he
      · exact flatten_arr_key_extends vs ih pre 0 e he
      · split at he
        · simp at he
        · simp at he
          exact ⟨"", by simp [he, String.append_empty]⟩
  | htab kvs ih =>
      intro pre e he
      rw [flatten_value_table_eq] at he
      exact flatten_table_key_extends kvs ih pre e he
  | hstr s =>
      intro pre e he
      rw [flatten_value_str] at he
      split at he
      · simp at he
      · simp at he
        exact ⟨"", by simp [he, String.append_empty]⟩
  | hint n =>
      intro pre e he
      rw [flatten_value_int] at he
      split at he
      · simp at he
      · simp at he
        exact ⟨"", by simp [he, String.append_empty]⟩
  | hflt l =>
      intro pre e he
      rw [flatten_value_float] at he
      split at he
      · simp at he
      · simp at he
        exact ⟨"", by simp [he, String.append_empty]⟩
  | hbool b =>
      intro pre e he
      rw [flatten_value_bool] at he
      split at he
      · simp at he
      · simp at he
        exact ⟨"", by simp [he, String.append_empty]⟩
  | hdt l =>
      intro pre e he
      rw [flatten_value_datetime] at he
      split at he
      · simp at he
      · simp at he
        exact ⟨"", by simp [he, String.append_empty]⟩

/-- `flatten_arr` is the concatenation, over the elements paired with
their indices, of the element flattenings at the bracketed prefixes. -/
theorem flatten_arr_eq_flatMap (vs : List Value) (pre : String) (i : Nat) :
    flatten_arr pre i vs =
      (vs.enumFrom i).flatMap
        (fun e => flatten_value (pre ++ "[" ++ natStr e.1 ++ "]") e.2) := by
  induction vs generalizing i with
  | nil => simp
  | cons v rest ihrest => simp [flatten_arr_cons, List.enumFrom_cons, ihrest]

/-- The bracketed index key with no further suffix also differs from the
bare prefix. -/
theorem bracket_key_ne_pre' (p : String) (i : Nat) :
    p ++ "[" ++ natStr i ++ "]" ≠ p := by
  have h := bracket_key_ne_pre p i ""
  rwa [String.append_empty] at h

/-- C2: for an array whose first element is a table, flattening at path P
produces exactly the entries of each element flattened at prefix `P[i]`
(element i paired with its index), and no entry is ever inserted under
the bare key P itself. -/
theorem array_of_tables_indexed_keys (P : String) (vs : List Value)
    (h : first_is_table vs = true) :
    flatten_value P (.arr vs) =
      (vs.enumFrom 0).flatMap
        (fun e => flatten_value (P ++ "[" ++ natStr e.1 ++ "]") e.2) ∧
    ∀ e ∈ flatten_value P (.arr vs), e.1 ≠ P := by
  constructor
  · rw [flatten_value_arr, if_pos h, flatten_arr_eq_flatMap]
  · intro e he
    rw [flatten_value_arr, if_pos h, flatten_arr_eq_flatMap] at he
    obtain ⟨⟨i, v⟩, _, hev⟩ := List.mem_flatMap.mp he
    obtain ⟨t, ht⟩ := flatten_key_extends v _ e hev
    rw [ht]
    exact bracket_key_ne_pre P i t

/-- Witness for C2 at a concrete two-element array of tables. -/
theorem array_of_tables_indexed_keys_witness :
    flatten_value "users" (.arr [.table [("name", .str "Alice")], .table [("name", .str "Bob")]]) =
      (([.table [("name", .str "Alice")], .table [("name", .str "Bob")]] :
          List Value).enumFrom 0).flatMap
        (fun e => flatten_value ("users" ++ "[" ++ natStr e.1 ++ "]") e.2) ∧
    ∀ e ∈ flatten_value "users"
        (.arr [.table [("name", .str "Alice")], .table [("name", .str "Bob")]]),
      e.1 ≠ "users" :=
  array_of_tables_indexed_keys "users"
    [.table [("name", .str "Alice")], .table [("name", .str "Bob")]] rfl

/-- C3: a primitive (non-table-first) array at a non-empty path P yields
exactly one store entry, at key P, holding the whole unexpanded array;
no indexed key `P[i]` is present, so `get` on such a key is absent. -/
theorem primitive_array_single_entry (P : String) (vs : List Value)
    (hP : P ≠ "") (h : first_is_table vs = false) :
    flatten_value P (.arr vs) = [(P, .arr vs)] ∧
    applyInserts [] (flatten_value P (.arr vs)) = [(P, .arr vs)] ∧
    ∀ i : Nat, storeGet (applyInserts [] (flatten_value P (.arr vs)))
      (P ++ "[" ++ natStr i ++ "]") = none := by
  have h1 : flatten_value P (.arr vs) = [(P, .arr vs)] := by
    rw [flatten_value_arr, if_neg (by simp [h]), if_neg hP]
  have h2 : applyInserts [] (flatten_value P (.arr vs)) = [(P, .arr vs)] := by
    rw [h1]; simp [applyInserts, insertKV]
  refine ⟨h1, h2, ?_⟩
  intro i
  rw [h2]
  simp only [storeGet, List.find?]
  have hne : (P = P ++ "[" ++ natStr i ++ "]") = False := by
    simp [(bracket_key_ne_pre' P i).symm]
  simp [hne]

/-- Witness for C3 at the `ports = [80, 443]` example of the spec. -/
theorem primitive_array_single_entry_witness :
    flatten_value "ports" (.arr [.int 80, .int 443]) =
      [("ports", .arr [.int 80, .int 443])] ∧
    applyInserts [] (flatten_value "ports" (.arr [.int 80, .int 443])) =
      [("ports", .arr [.int 80, .int 443])] ∧
    ∀ i : Nat, storeGet
      (applyInserts [] (flatten_value "ports" (.arr [.int 80, .int 443])))
      ("ports" ++ "[" ++ natStr i ++ "]") = none :=
  primitive_array_single_entry "ports" [.int 80, .int 443] (by simp) rfl

/-- C7: a scalar at the empty prefix (a bare non-table root) is silently
dropped: no insertion happens and the resulting store is empty. -/
theorem scalar_root_silently_dropped (v : Value) (h : v.is_scalar = true) :
    flatten_value "" v = [] ∧ applyInserts [] (flatten_value "" v) = [] := by
  have h1 : flatten_value "" v = [] := by rw [flatten_value_scalar _ _ h]; simp
  exact ⟨h1, by rw [h1]; rfl⟩

/-- Witness for C7 at a bare integer root. -/
theorem scalar_root_silently_dropped_witness :
    flatten_value "" (.int 7) = [] ∧ applyInserts [] (flatten_value "" (.int 7)) = [] :=
  scalar_root_silently_dropped (.int 7) rfl

/-- C10: in a table-first array, every element at index i — table or not —
is recursed into with prefix `P[i]`; hence a scalar element lands in the
store at key `P[i]`, and an array element whose own first element is not a
table lands at key `P[i]` as a whole array. -/
theorem mixed_array_elements_recursed (P : String) (vs : List Value)
    (h : first_is_table vs = true) :
    ∀ iv ∈ vs.enumFrom 0,
      (iv.2.is_scalar = true →
        (P ++ "[" ++ natStr iv.1 ++ "]", iv.2) ∈ flatten_value P (.arr vs)) ∧
      (∀ ws, iv.2 = .arr ws → first_is_table ws = false →
        (P ++ "[" ++ natStr iv.1 ++ "]", .arr ws) ∈ flatten_value P (.arr vs)) := by
  intro iv hiv
  rw [flatten_value_arr, if_pos h, flatten_arr_eq_flatMap]
  constructor
  · intro hs
    refine List.mem_flatMap.mpr ⟨iv, hiv, ?_⟩
    rw [flatten_value_scalar _ _ hs, if_neg (bracket_key_ne_empty P iv.1)]
    simp
  · intro ws hws hwf
    refine List.mem_flatMap.mpr ⟨iv, hiv, ?_⟩
    rw [hws, flatten_value_arr, if_neg (by simp [hwf]),
      if_neg (bracket_key_ne_empty P iv.1)]
    simp

/-- Witness for C10 at a mixed array holding a table, a scalar and a
primitive array. -/
theorem mixed_array_elements_recursed_witness :
    ((Value.int 2).is_scalar = true →
      ("a" ++ "[" ++ natStr 1 ++ "]", Value.int 2) ∈
        flatten_value "a" (.arr [.table [("x", .int 1)], .int 2, .arr [.int 3]])) ∧
    (∀ ws, Value.int 2 = .arr ws → first_is_table ws = false →
      ("a" ++ "[" ++ natStr 1 ++ "]", Value.arr ws) ∈
        flatten_value "a" (.arr [.table [("x", .int 1)], .int 2, .arr [.int 3]])) :=
  mixed_array_elements_recursed "a" [.table [("x", .int 1)], .int 2, .arr [.int 3]] rfl
    (1, .int 2) (by simp [List.enumFrom])

/-- C5: each typed getter returns absence exactly when the key is missing
from the store or the stored value has a different type; both cases
collapse into the same `none`, with no distinct error signal. -/
theorem typed_getters_collapse (s : List (String × Value)) (k : String) :
    (Config.get_string ⟨s⟩ k = none ↔
      Config.get ⟨s⟩ k = none ∨ ∃ v, Config.get ⟨s⟩ k = some v ∧ v.as_str = none) ∧
    (Config.get_int ⟨s⟩ k = none ↔
      Config.get ⟨s⟩ k = none ∨ ∃ v, Config.get ⟨s⟩ k = some v ∧ v.as_integer = none) ∧
    (Config.get_float ⟨s⟩ k = none ↔
      Config.get ⟨s⟩ k = none ∨ ∃ v, Config.get ⟨s⟩ k = some v ∧ v.as_float = none) ∧
    (Config.get_bool ⟨s⟩ k = none ↔
      Config.get ⟨s⟩ k = none ∨ ∃ v, Config.get ⟨s⟩ k = some v ∧ v.as_bool = none) := by
  cases hv : Config.get ⟨s⟩ k <;>
    simp [Config.get_string, Config.get_int, Config.get_float, Config.get_bool, hv]

/-- C6: `Config::flatten` yields one pair per store entry; a string value
keeps its raw content with no quoting added, every other value renders
through its canonical display form — in particular boolean `true` renders
as the string "true" and the float 5.5 as the string "5.5". -/
theorem config_flatten_renders (s : List (String × Value)) :
    (Config.flatten ⟨s⟩).length = s.length ∧
    (∀ k v, (k, v) ∈ s →
      (∀ t, v.as_str = some t → (k, t) ∈ Config.flatten ⟨s⟩) ∧
      (v.as_str = none → (k, v.display) ∈ Config.flatten ⟨s⟩)) ∧
    Config.flatten ⟨[("a", .bool true), ("b", .float "5.5")]⟩ =
      [("a", "true"), ("b", "5.5")] := by
  refine ⟨by simp [Config.flatten], ?_, ?_⟩
  · intro k v hmem
    constructor
    · intro t ht
      have hm := List.mem_map_of_mem
        (fun e : String × Value => (e.1, (e.2.as_str).getD e.2.display)) hmem
      simpa [Config.flatten, ht] using hm
    · intro ht
      have hm := List.mem_map_of_mem
        (fun e : String × Value => (e.1, (e.2.as_str).getD e.2.display)) hmem
      simpa [Config.flatten, ht] using hm
  · simp [Config.flatten, Value.as_str]
    constructor
    · rw [Value.display]; simp
    · rw [Value.display]

/-- C8: the flattening walk is a total function of the tree shape, so
loading fails exactly when the external parser rejects the text, with
the parser's diagnostic wrapped; on parser success the load always
succeeds with the flattened store. -/
theorem load_fails_only_on_parse_failure
    (parse : String → Except String Value) (content : String) :
    (∀ err, from_toml_with parse content = .error err ↔
      ∃ msg, parse content = .error msg ∧ err = .toml msg) ∧
    (∀ root, parse content = .ok root →
      from_toml_with parse content = .ok ⟨applyInserts [] (flatten_value "" root)⟩) := by
  refine ⟨?_, ?_⟩
  · intro err
    cases hp : parse content with
    | error e => simp [from_toml_with, hp, eq_comm]
    | ok root => simp [from_toml_with, hp]
  · intro root hroot
    simp [from_toml_with, hroot]

/-- C9: loading the same source text twice gives configs whose flatten
outputs contain exactly the same key-to-string pairs. -/
theorem load_twice_flatten_set_equal (parse : String → Except String Value)
    (content : String) (c1 c2 : Config)
    (h1 : from_toml_with parse content = .ok c1)
    (h2 : from_toml_with parse content = .ok c2) :
    ∀ p : String × String, p ∈ c1.flatten ↔ p ∈ c2.flatten := by
  rw [h1] at h2
  cases h2
  intro p
  rfl

/-- Witness for C9 at a one-entry document. -/
theorem load_twice_flatten_set_equal_witness :
    ("title", "Test") ∈ (Config.mk [("title", Value.str "Test")]).flatten ↔
      ("title", "Test") ∈ (Config.mk [("title", Value.str "Test")]).flatten :=
  load_twice_flatten_set_equal (fun _ => .ok (.table [("title", .str "Test")])) ""
    (Config.mk [("title", Value.str "Test")]) (Config.mk [("title", Value.str "Test")])
    (by simp [from_toml_with, applyInserts, insertKV])
    (by simp [from_toml_with, applyInserts, insertKV])
    ("title", "Test")

/-- Every digit character of 0..9 is a digit. -/
theorem digitChar_isDigit : ∀ d : Nat, d < 10 → (Nat.digitChar d).isDigit = true := by
  decide

/-- The digit characters of 0..9 are pairwise distinct. -/
theorem digitChar_inj :
    ∀ a : Nat, a < 10 → ∀ b : Nat, b < 10 → Nat.digitChar a = Nat.digitChar b → a = b := by
  decide

/-- Case equation of `decRepr` below ten. -/
theorem decRepr_lt (n : Nat) (h : n < 10) : decRepr n = [Nat.digitChar n] := by
  rw [decRepr]; simp [h]

/-- Case equation of `decRepr` at ten and above. -/
theorem decRepr_ge (n : Nat) (h : ¬ n < 10) :
    decRepr n = decRepr (n / 10) ++ [Nat.digitChar (n % 10)] := by
  rw [decRepr]; simp [h]

/-- A decimal rendering is never empty. -/
theorem decRepr_ne_nil (n : Nat) : decRepr n ≠ [] := by
  by_cases h : n < 10
  · rw [decRepr_lt n h]; simp
  · rw [decRepr_ge n h]; simp

/-- Every character of a decimal rendering is a digit. -/
theorem decRepr_digit (n : Nat) : ∀ c ∈ decRepr n, c.isDigit = true := by
  by_cases h : n < 10
  · rw [decRepr_lt n h]
    intro c hc
    simp at hc
    subst hc
    exact digitChar_isDigit n h
  · rw [decRepr_ge n h]
    intro c hc
    rcases List.mem_append.mp hc with h1 | h1
    · exact decRepr_digit (n / 10) c h1
    · simp at h1
      subst h1
      exact digitChar_isDigit (n % 10) (Nat.mod_lt _ (by omega))
termination_by n
decreasing_by simp_wf; omega

/-- Decimal renderings of distinct naturals are distinct. -/
theorem decRepr_inj (m n : Nat) (h : decRepr m = decRepr n) : m = n := by
  by_cases hm : m < 10 <;> by_cases hn : n < 10
  · rw [decRepr_lt m hm, decRepr_lt n hn] at h
    simp at h
    exact digitChar_inj m hm n hn h
  · rw [decRepr_lt m hm, decRepr_ge n hn] at h
    have hl := congrArg List.length h
    simp at hl
    exact absurd hl (decRepr_ne_nil (n / 10))
  · rw [decRepr_ge m hm, decRepr_lt n hn] at h
    have hl := congrArg List.length h
    simp at hl
    exact absurd hl (decRepr_ne_nil (m / 10))
  · rw [decRepr_ge m hm, decRepr_ge n hn] at h
    obtain ⟨h1, h2⟩ := List.append_inj' h (by simp)
    have hdiv : m / 10 = n / 10 := decRepr_inj (m / 10) (n / 10) h1
    simp at h2
    have hmod : m % 10 = n % 10 :=
      digitChar_inj (m % 10) (Nat.mod_lt _ (by omega)) (n % 10) (Nat.mod_lt _ (by omega)) h2
    omega
termination_by m
decreasing_by simp_wf; omega

/-- The decimal strings of distinct naturals are distinct. -/
theorem natStr_inj (m n : Nat) (h : natStr m = natStr n) : m = n :=
  decRepr_inj m n (congrArg String.data h)

/-- Splitting at a separator: when two clean token lists are followed by
tails that start (if at all) with a separator character, equal
concatenations force equal tokens and equal tails. -/
theorem sep_split (sep : Char → Bool) :
    ∀ (a b t u : List Char),
      (∀ c ∈ a, sep c = false) → (∀ c ∈ b, sep c = false) →
      (∀ c, t.head? = some c → sep c = true) →
      (∀ c, u.head? = some c → sep c = true) →
      a ++ t = b ++ u → a = b ∧ t = u := by
  intro a
  induction a with
  | nil =>
      intro b t u _ hb ht _ h
      cases b with
      | nil => exact ⟨rfl, by simpa using h⟩
      | cons c b' =>
          exfalso
          simp only [List.nil_append, List.cons_append] at h
          have hhd : t.head? = some c := by rw [h]; rfl
          have h1 := ht c hhd
          have h2 := hb c (by simp)
          simp_all
  | cons c a' iha =>
      intro b t u ha hb ht hu h
      cases b with
      | nil =>
          exfalso
          simp only [List.cons_append, List.nil_append] at h
          have hhd : u.head? = some c := by rw [← h]; rfl
          have h1 := hu c hhd
          have h2 := ha c (by simp)
          simp_all
      | cons d b' =>
          simp only [List.cons_append, List.cons.injEq] at h
          obtain ⟨rfl, h2⟩ := h
          obtain ⟨h3, h4⟩ :=
            iha b' t u (fun x hx => ha x (by simp [hx])) (fun x hx => hb x (by simp [hx]))
              ht hu h2
          exact ⟨by rw [h3], h4⟩

@[simp] theorem str_empty_data : ("" : String).data = [] := rfl

@[simp] theorem natStr_data (n : Nat) : (natStr n).data = decRepr n := rfl

@[simp] theorem encCont_nil : encCont [] = "" := rfl

theorem encCont_fld (s : String) (ps : List Seg) :
    encCont (.fld s :: ps) = "." ++ s ++ encCont ps := rfl

theorem encCont_idx (n : Nat) (ps : List Seg) :
    encCont (.idx n :: ps) = "[" ++ natStr n ++ "]" ++ encCont ps := rfl

@[simp] theorem encHead_nil : encHead [] = "" := rfl

theorem encHead_fld (s : String) (ps : List Seg) :
    encHead (.fld s :: ps) = s ++ encCont ps := rfl

theorem encHead_idx (n : Nat) (ps : List Seg) :
    encHead (.idx n :: ps) = "[" ++ natStr n ++ "]" ++ encCont ps := rfl

theorem encCont_fld_data (s : String) (ps : List Seg) :
    (encCont (.fld s :: ps)).data = '.' :: (s.data ++ (encCont ps).data) := by
  rw [encCont_fld]
  simp [String.data_append]

theorem encCont_idx_data (n : Nat) (ps : List Seg) :
    (encCont (.idx n :: ps)).data = '[' :: (decRepr n ++ (']' :: (encCont ps).data)) := by
  rw [encCont_idx]
  simp [String.data_append]

theorem encHead_fld_data (s : String) (ps : List Seg) :
    (encHead (.fld s :: ps)).data = s.data ++ (encCont ps).data := by
  rw [encHead_fld]
  simp [String.data_append]

/-- The continuation encoding of a non-empty path starts with a dot or an
opening bracket. -/
theorem encCont_head_sep (p : List Seg) :
    ∀ c, (encCont p).data.head? = some c → (c = '.' ∨ c = '[') := by
  cases p with
  | nil => intro c hc; simp at hc
  | cons s ps =>
      cases s with
      | fld t =>
          intro c hc
          rw [encCont_fld_data] at hc
          simp at hc
          exact Or.inl hc.symm
      | idx n =>
          intro c hc
          rw [encCont_idx_data] at hc
          simp at hc
          exact Or.inr hc.symm

/-- Field names allowed by the bijection statement: non-empty, containing
neither the dot nor the opening-bracket separator. -/
def cleanName (s : String) : Bool :=
  (!s.isEmpty) && s.data.all (fun c => !(c == '.') && !(c == '['))

/-- Field names allowed by the dotted-path statement for array-free trees:
non-empty and dot-free. -/
def dotFree (s : String) : Bool :=
  (!s.isEmpty) && s.data.all (fun c => !(c == '.'))

/-- A path segment whose field name (if any) satisfies the name filter. -/
def SegOk (ok : String → Bool) : Seg → Prop
  | .fld s => ok s = true
  | .idx _ => True

/-- All field names along a path satisfy the name filter. -/
def PathOk (ok : String → Bool) (p : List Seg) : Prop := ∀ s ∈ p, SegOk ok s

/-- The separator characters of the full key grammar. -/
def sepDotBr (c : Char) : Bool := c == '.' || c == '['

theorem cleanName_sep (s : String) (h : cleanName s = true) :
    ∀ c ∈ s.data, sepDotBr c = false := by
  intro c hc
  have h2 := (Bool.and_eq_true _ _).mp h |>.2
  have h3 := List.all_eq_true.mp h2 c hc
  simp [sepDotBr] at *
  exact h3

theorem dotFree_sep (s : String) (h : dotFree s = true) :
    ∀ c ∈ s.data, (c == '.') = false := by
  intro c hc
  have h2 := (Bool.and_eq_true _ _).mp h |>.2
  have h3 := List.all_eq_true.mp h2 c hc
  simp at *
  exact h3

theorem cleanName_ne_empty (s : String) (h : cleanName s = true) : s ≠ "" := by
  intro he
  subst he
  simp [cleanName, String.isEmpty] at h

theorem dotFree_ne_empty (s : String) (h : dotFree s = true) : s ≠ "" := by
  intro he
  subst he
  simp [dotFree, String.isEmpty] at h

theorem isDigit_beq_false (c : Char) (h : c.isDigit = true) (d : Char)
    (hd : d.isDigit = false) : (c == d) = false := by
  cases hbeq : c == d
  · rfl
  · exfalso
    have : c = d := by simpa using hbeq
    subst this
    rw [h] at hd
    exact absurd hd (by simp)

theorem decRepr_not_sep (n : Nat) : ∀ c ∈ decRepr n, sepDotBr c = false := by
  intro c hc
  have hd := decRepr_digit n c hc
  have h1 := isDigit_beq_false c hd '.' (by decide)
  have h2 := isDigit_beq_false c hd '[' (by decide)
  simp [sepDotBr, h1, h2]

theorem decRepr_not_bracket_close (n : Nat) : ∀ c ∈ decRepr n, (c == ']') = false := by
  intro c hc
  exact isDigit_beq_false c (decRepr_digit n c hc) ']' (by decide)

theorem PathOk.head_fld {ok : String → Bool} {a : String} {ps : List Seg}
    (hp : PathOk ok (Seg.fld a :: ps)) : ok a = true :=
  hp (Seg.fld a) (by simp)

theorem PathOk.tail {ok : String → Bool} {s : Seg} {ps : List Seg}
    (hp : PathOk ok (s :: ps)) : PathOk ok ps :=
  fun x hx => hp x (by simp [hx])

theorem encCont_head_sepDotBr (p : List Seg) :
    ∀ c, (encCont p).data.head? = some c → sepDotBr c = true := by
  intro c hc
  rcases encCont_head_sep p c hc with rfl | rfl <;> rfl

/-- Continuation encodings are injective on paths with clean field names. -/
theorem encCont_inj (p : List Seg) :
    ∀ q : List Seg, PathOk cleanName p → PathOk cleanName q →
      encCont p = encCont q → p = q := by
  induction p with
  | nil =>
      intro q _ _ h
      cases q with
      | nil => rfl
      | cons s qs =>
          exfalso
          have hd := congrArg String.data h
          cases s with
          | fld t => rw [encCont_fld_data] at hd; simp at hd
          | idx n => rw [encCont_idx_data] at hd; simp at hd
  | cons s ps ih =>
      intro q hp hq h
      cases q with
      | nil =>
          exfalso
          have hd := congrArg String.data h
          cases s with
          | fld t => rw [encCont_fld_data] at hd; simp at hd
          | idx n => rw [encCont_idx_data] at hd; simp at hd
      | cons s' qs =>
          have hd := congrArg String.data h
          cases s with
          | fld a =>
              cases s' with
              | fld b =>
                  rw [encCont_fld_data, encCont_fld_data] at hd
                  simp only [List.cons.injEq] at hd
                  obtain ⟨-, htail⟩ := hd
                  obtain ⟨hab, hcont⟩ :=
                    sep_split sepDotBr a.data b.data (encCont ps).data (encCont qs).data
                      (cleanName_sep a hp.head_fld)
                      (cleanName_sep b hq.head_fld)
                      (encCont_head_sepDotBr ps) (encCont_head_sepDotBr qs) htail
                  have hab' : a = b := String.ext hab
                  have hps : ps = qs := ih qs hp.tail hq.tail (String.ext hcont)
                  rw [hab', hps]
              | idx n =>
                  exfalso
                  rw [encCont_fld_data, encCont_idx_data] at hd
                  simp at hd
          | idx m =>
              cases s' with
              | fld b =>
                  exfalso
                  rw [encCont_idx_data, encCont_fld_data] at hd
                  simp at hd
              | idx n =>
                  rw [encCont_idx_data, encCont_idx_data] at hd
                  simp only [List.cons.injEq] at hd
                  obtain ⟨-, htail⟩ := hd
                  obtain ⟨hmn, hcont⟩ :=
                    sep_split (fun c => c == ']') (decRepr m) (decRepr n)
                      (']' :: (encCont ps).data) (']' :: (encCont qs).data)
                      (decRepr_not_bracket_close m) (decRepr_not_bracket_close n)
                      (by intro c hc; simp at hc; subst hc; rfl)
                      (by intro c hc; simp at hc; subst hc; rfl) htail
                  have hmn' : m = n := decRepr_inj m n hmn
                  simp only [List.cons.injEq] at hcont
                  have hps : ps = qs := ih qs hp.tail hq.tail (String.ext hcont.2)
                  rw [hmn', hps]

/-- Full-path encodings are injective on field-headed paths with clean
field names. -/
theorem encHead_inj_fld (a b : String) (ps qs : List Seg)
    (ha : cleanName a = true) (hb : cleanName b = true)
    (hps : PathOk cleanName ps) (hqs : PathOk cleanName qs)
    (h : encHead (.fld a :: ps) = encHead (.fld b :: qs)) :
    Seg.fld a :: ps = Seg.fld b :: qs := by
  have hd := congrArg String.data h
  rw [encHead_fld_data, encHead_fld_data] at hd
  obtain ⟨hab, hcont⟩ :=
    sep_split sepDotBr a.data b.data (encCont ps).data (encCont qs).data
      (cleanName_sep a ha) (cleanName_sep b hb)
      (encCont_head_sepDotBr ps) (encCont_head_sepDotBr qs) hd
  rw [String.ext hab, encCont_inj ps qs hps hqs (String.ext hcont)]

/-- A path that uses only field descents. -/
def allFld : List Seg → Bool
  | [] => true
  | .fld _ :: ps => allFld ps
  | .idx _ :: _ => false

theorem encCont_head_dot (p : List Seg) (h : allFld p = true) :
    ∀ c, (encCont p).data.head? = some c → (c == '.') = true := by
  cases p with
  | nil => intro c hc; simp at hc
  | cons s ps =>
      cases s with
      | fld t =>
          intro c hc
          rw [encCont_fld_data] at hc
          simp at hc
          subst hc
          rfl
      | idx n => simp [allFld] at h

/-- Continuation encodings are injective on all-field paths with
dot-free field names. -/
theorem encCont_inj_dot (p : List Seg) :
    ∀ q : List Seg, allFld p = true → allFld q = true →
      PathOk dotFree p → PathOk dotFree q →
      encCont p = encCont q → p = q := by
  induction p with
  | nil =>
      intro q _ hq _ _ h
      cases q with
      | nil => rfl
      | cons s qs =>
          exfalso
          have hd := congrArg String.data h
          cases s with
          | fld t => rw [encCont_fld_data] at hd; simp at hd
          | idx n => simp [allFld] at hq
  | cons s ps ih =>
      intro q hap haq hp hq h
      cases s with
      | idx m => simp [allFld] at hap
      | fld a =>
          cases q with
          | nil =>
              exfalso
              have hd := congrArg String.data h
              rw [encCont_fld_data] at hd
              simp at hd
          | cons s' qs =>
              cases s' with
              | idx n => simp [allFld] at haq
              | fld b =>
                  have hd := congrArg String.data h
                  rw [encCont_fld_data, encCont_fld_data] at hd
                  simp only [List.cons.injEq] at hd
                  obtain ⟨-, htail⟩ := hd
                  obtain ⟨hab, hcont⟩ :=
                    sep_split (fun c => c == '.') a.data b.data
                      (encCont ps).data (encCont qs).data
                      (dotFree_sep a hp.head_fld)
                      (dotFree_sep b hq.head_fld)
                      (encCont_head_dot ps (by simpa [allFld] using hap))
                      (encCont_head_dot qs (by simpa [allFld] using haq)) htail
                  rw [String.ext hab,
                    ih qs (by simpa [allFld] using hap) (by simpa [allFld] using haq)
                      hp.tail hq.tail (String.ext hcont)]

/-- Full-path encodings are injective on field-headed all-field paths
with dot-free field names. -/
theorem encHead_inj_dot (a b : String) (ps qs : List Seg)
    (ha : dotFree a = true) (hb : dotFree b = true)
    (hap : allFld ps = true) (haq : allFld qs = true)
    (hps : PathOk dotFree ps) (hqs : PathOk dotFree qs)
    (h : encHead (.fld a :: ps) = encHead (.fld b :: qs)) :
    Seg.fld a :: ps = Seg.fld b :: qs := by
  have hd := congrArg String.data h
  rw [encHead_fld_data, encHead_fld_data] at hd
  obtain ⟨hab, hcont⟩ :=
    sep_split (fun c => c == '.') a.data b.data (encCont ps).data (encCont qs).data
      (dotFree_sep a ha) (dotFree_sep b hb)
      (encCont_head_dot ps hap) (encCont_head_dot qs haq) hd
  rw [String.ext hab, encCont_inj_dot ps qs hap haq hps hqs (String.ext hcont)]

end Tomldir

namespace Tomldir

/-- A dotted child key is never the empty string. -/
theorem dot_key_ne_empty (pre k : String) : pre ++ "." ++ k ≠ "" := by
  intro he
  have hd := congrArg String.data he
  simp [String.data_append] at hd

/-- Table arm of the flatten/leaves correspondence at a non-empty prefix. -/
theorem flatten_table_eq_leaves (kvs : List (String × Value))
    (ih : ∀ kv ∈ kvs, ∀ pre : String, pre ≠ "" →
      flatten_value pre kv.2 = (leaves kv.2).map (fun e => (pre ++ encCont e.1, e.2))) :
    ∀ pre : String, pre ≠ "" →
      flatten_table pre kvs =
        (leaves_table kvs).map (fun e => (pre ++ encCont e.1, e.2)) := by
  induction kvs with
  | nil => intro pre _; simp
  | cons kv rest ihrest =>
      intro pre hpre
      obtain ⟨k, v⟩ := kv
      rw [flatten_table_cons, leaves_table_cons, List.map_append, List.map_map]
      congr 1
      · rw [if_neg hpre, ih (k, v) (by simp) _ (dot_key_ne_empty pre k)]
        have hfun : (fun e : List Seg × Value => ((pre ++ "." ++ k) ++ encCont e.1, e.2)) =
            ((fun e : List Seg × Value => (pre ++ encCont e.1, e.2)) ∘
              fun e : List Seg × Value => (Seg.fld k :: e.1, e.2)) := by
          funext e
          simp only [Function.comp]
          rw [encCont_fld]
          simp [String.append_assoc]
        rw [hfun]
      · exact ihrest (fun w hw => ih w (by simp [hw])) pre hpre

/-- Array arm of the flatten/leaves correspondence (the bracketed child
prefix is non-empty even when the incoming prefix is empty). -/
theorem flatten_arr_eq_leaves (vs : List Value)
    (ih : ∀ v ∈ vs, ∀ pre : String, pre ≠ "" →
      flatten_value pre v = (leaves v).map (fun e => (pre ++ encCont e.1, e.2))) :
    ∀ (pre : String) (i : Nat),
      flatten_arr pre i vs =
        (leaves_arr i vs).map (fun e => (pre ++ encCont e.1, e.2)) := by
  induction vs with
  | nil => intro pre i; simp
  | cons v rest ihrest =>
      intro pre i
      rw [flatten_arr_cons, leaves_arr_cons, List.map_append, List.map_map]
      congr 1
      · rw [ih v (by simp) _ (bracket_key_ne_empty pre i)]
        have hfun : (fun e : List Seg × Value =>
              ((pre ++ "[" ++ natStr i ++ "]") ++ encCont e.1, e.2)) =
            ((fun e : List Seg × Value => (pre ++ encCont e.1, e.2)) ∘
              fun e : List Seg × Value => (Seg.idx i :: e.1, e.2)) := by
          funext e
          simp only [Function.comp]
          rw [encCont_idx]
          simp [String.append_assoc]
        rw [hfun]
      · exact ihrest (fun w hw => ih w (by simp [hw])) pre (i + 1)

/-- At a non-empty prefix, the flattener emits exactly one entry per leaf,
keyed by the prefix extended with the leaf's path continuation. -/
theorem flatten_eq_leaves_map (v : Value) :
    ∀ pre : String, pre ≠ "" →
      flatten_value pre v = (leaves v).map (fun e => (pre ++ encCont e.1, e.2)) := by
  induction v using Value.strongInd with
  | harr vs ih =>
      intro pre hpre
      rw [flatten_value_arr, leaves_arr_eq]
      by_cases hc : first_is_table vs
      · simp only [if_pos hc]
        exact flatten_arr_eq_leaves vs ih pre 0
      · simp only [if_neg hc, if_neg hpre]
        simp [String.append_empty]
  | htab kvs ih =>
      intro pre hpre
      rw [flatten_value_table_eq, leaves_table_eq]
      exact flatten_table_eq_leaves kvs ih pre hpre
  | hstr s =>
      intro pre hpre
      rw [flatten_value_str, if_neg hpre]
      simp [String.append_empty]
  | hint n =>
      intro pre hpre
      rw [flatten_value_int, if_neg hpre]
      simp [String.append_empty]
  | hflt l =>
      intro pre hpre
      rw [flatten_value_float, if_neg hpre]
      simp [String.append_empty]
  | hbool b =>
      intro pre hpre
      rw [flatten_value_bool, if_neg hpre]
      simp [String.append_empty]
  | hdt l =>
      intro pre hpre
      rw [flatten_value_datetime, if_neg hpre]
      simp [String.append_empty]

/-- From the empty prefix, a table whose entry names are non-empty emits
exactly one entry per leaf, keyed by the full-path encoding. -/
theorem flatten_root_table_eq_leaves (kvs : List (String × Value))
    (hne : ∀ kv ∈ kvs, kv.1 ≠ "") :
    flatten_table "" kvs = (leaves_table kvs).map (fun e => (encHead e.1, e.2)) := by
  induction kvs with
  | nil => simp
  | cons kv rest ihrest =>
      obtain ⟨k, v⟩ := kv
      rw [flatten_table_cons, leaves_table_cons, List.map_append, List.map_map]
      congr 1
      · rw [if_pos rfl, flatten_eq_leaves_map v k (hne (k, v) (by simp))]
        have hfun : (fun e : List Seg × Value => (k ++ encCont e.1, e.2)) =
            ((fun e : List Seg × Value => (encHead e.1, e.2)) ∘
              fun e : List Seg × Value => (Seg.fld k :: e.1, e.2)) := by
          funext e
          simp only [Function.comp]
          rw [encHead_fld]
        rw [hfun]
      · exact ihrest (fun w hw => hne w (by simp [hw]))

end Tomldir

namespace Tomldir

mutual

/-- Name discipline over the parts of the tree the flattener descends
into: every table has pairwise-distinct entry names, and every such name
passes the filter `ok`. -/
def wfNamesP (ok : String → Bool) : Value → Bool
  | .table kvs => decide ((kvs.map Prod.fst).Nodup) && wfTableP ok kvs
  | .arr vs => if first_is_table vs then wfArrP ok vs else true
  | _ => true
termination_by v => sizeOf v
decreasing_by all_goals (simp_wf <;> omega)

/-- Name discipline over a table's entries. -/
def wfTableP (ok : String → Bool) : List (String × Value) → Bool
  | [] => true
  | (k, v) :: rest => ok k && wfNamesP ok v && wfTableP ok rest
termination_by kvs => sizeOf kvs
decreasing_by all_goals (simp_wf <;> omega)

/-- Name discipline over a table-first array's elements. -/
def wfArrP (ok : String → Bool) : List Value → Bool
  | [] => true
  | v :: rest => wfNamesP ok v && wfArrP ok rest
termination_by vs => sizeOf vs
decreasing_by all_goals (simp_wf <;> omega)

end

mutual

/-- No arrays anywhere in the tree (the shape of Claim C1). -/
def noArrays : Value → Bool
  | .arr _ => false
  | .table kvs => noArraysTable kvs
  | _ => true
termination_by v => sizeOf v
decreasing_by all_goals (simp_wf <;> omega)

/-- No arrays among a table's entries. -/
def noArraysTable : List (String × Value) → Bool
  | [] => true
  | (_, v) :: rest => noArrays v && noArraysTable rest
termination_by kvs => sizeOf kvs
decreasing_by all_goals (simp_wf <;> omega)

end

@[simp] theorem wfNamesP_table_eq (ok : String → Bool) (kvs : List (String × Value)) :
    wfNamesP ok (.table kvs) =
      (decide ((kvs.map Prod.fst).Nodup) && wfTableP ok kvs) := by
  rw [wfNamesP]

@[simp] theorem wfNamesP_arr_eq (ok : String → Bool) (vs : List Value) :
    wfNamesP ok (.arr vs) = if first_is_table vs then wfArrP ok vs else true := by
  rw [wfNamesP]

theorem wfNamesP_scalar (ok : String → Bool) (v : Value) (h : v.is_scalar = true) :
    wfNamesP ok v = true := by
  cases v <;> simp_all [Value.is_scalar] <;>
    (rw [wfNamesP] <;> exact fun _ h => nomatch h)

@[simp] theorem wfTableP_nil (ok : String → Bool) : wfTableP ok [] = true := by
  rw [wfTableP]

@[simp] theorem wfTableP_cons (ok : String → Bool) (k : String) (v : Value)
    (rest : List (String × Value)) :
    wfTableP ok ((k, v) :: rest) = (ok k && wfNamesP ok v && wfTableP ok rest) := by
  rw [wfTableP]

@[simp] theorem wfArrP_nil (ok : String → Bool) : wfArrP ok [] = true := by
  rw [wfArrP]

@[simp] theorem wfArrP_cons (ok : String → Bool) (v : Value) (rest : List Value) :
    wfArrP ok (v :: rest) = (wfNamesP ok v && wfArrP ok rest) := by
  rw [wfArrP]

@[simp] theorem noArrays_arr (vs : List Value) : noArrays (.arr vs) = false := by
  rw [noArrays]

@[simp] theorem noArrays_table_eq (kvs : List (String × Value)) :
    noArrays (.table kvs) = noArraysTable kvs := by
  rw [noArrays]

theorem noArrays_scalar (v : Value) (h : v.is_scalar = true) : noArrays v = true := by
  cases v <;> simp_all [Value.is_scalar] <;>
    (rw [noArrays] <;> exact fun _ h => nomatch h)

@[simp] theorem noArraysTable_nil : noArraysTable [] = true := by
  rw [noArraysTable]

@[simp] theorem noArraysTable_cons (k : String) (v : Value)
    (rest : List (String × Value)) :
    noArraysTable ((k, v) :: rest) = (noArrays v && noArraysTable rest) := by
  rw [noArraysTable]

theorem wfTableP_mem (ok : String → Bool) (kvs : List (String × Value))
    (h : wfTableP ok kvs = true) :
    ∀ kv ∈ kvs, ok kv.1 = true ∧ wfNamesP ok kv.2 = true := by
  induction kvs with
  | nil => simp
  | cons kv rest ihrest =>
      obtain ⟨k, v⟩ := kv
      rw [wfTableP_cons] at h
      simp only [Bool.and_eq_true] at h
      intro w hw
      rcases List.mem_cons.mp hw with rfl | hw'
      · exact ⟨h.1.1, h.1.2⟩
      · exact ihrest h.2 w hw'

theorem wfArrP_mem (ok : String → Bool) (vs : List Value) (h : wfArrP ok vs = true) :
    ∀ v ∈ vs, wfNamesP ok v = true := by
  induction vs with
  | nil => simp
  | cons v rest ihrest =>
      rw [wfArrP_cons] at h
      simp only [Bool.and_eq_true] at h
      intro w hw
      rcases List.mem_cons.mp hw with rfl | hw'
      · exact h.1
      · exact ihrest h.2 w hw'

theorem noArraysTable_mem (kvs : List (String × Value)) (h : noArraysTable kvs = true) :
    ∀ kv ∈ kvs, noArrays kv.2 = true := by
  induction kvs with
  | nil => simp
  | cons kv rest ihrest =>
      obtain ⟨k, v⟩ := kv
      rw [noArraysTable_cons] at h
      simp only [Bool.and_eq_true] at h
      intro w hw
      rcases List.mem_cons.mp hw with rfl | hw'
      · exact h.1
      · exact ihrest h.2 w hw'

end Tomldir

namespace Tomldir

theorem PathOk.cons {ok : String → Bool} {s : Seg} {p : List Seg}
    (h1 : SegOk ok s) (h2 : PathOk ok p) : PathOk ok (s :: p) := by
  intro x hx
  rcases List.mem_cons.mp hx with rfl | hx'
  · exact h1
  · exact h2 x hx'

@[simp] theorem PathOk_nil (ok : String → Bool) : PathOk ok [] := by
  intro x hx
  exact absurd hx (List.not_mem_nil x)

/-- Every leaf path of a table starts with the field segment of one of
its entries, continuing with a leaf path of that entry's value. -/
theorem leaves_table_shape (kvs : List (String × Value)) :
    ∀ e ∈ leaves_table kvs, ∃ kv ∈ kvs, ∃ p' : List Seg,
      e.1 = .fld kv.1 :: p' ∧ (p', e.2) ∈ leaves kv.2 := by
  induction kvs with
  | nil => simp
  | cons kv rest ihrest =>
      obtain ⟨k, v⟩ := kv
      intro e he
      rw [leaves_table_cons] at he
      rcases List.mem_append.mp he with h | h
      · obtain ⟨w, hw, hwe⟩ := List.mem_map.mp h
        refine ⟨(k, v), by simp, w.1, by rw [← hwe], ?_⟩
        have : w.2 = e.2 := by rw [← hwe]
        rw [← this]
        exact hw
      · obtain ⟨kv', hkv', p', hp1, hp2⟩ := ihrest e h
        exact ⟨kv', by simp [hkv'], p', hp1, hp2⟩

/-- Every leaf path of a table-first array starts with an index segment
at or above the starting index. -/
theorem leaves_arr_shape (vs : List Value) :
    ∀ (i : Nat), ∀ e ∈ leaves_arr i vs, ∃ j, i ≤ j ∧ ∃ p' : List Seg,
      e.1 = .idx j :: p' := by
  induction vs with
  | nil => simp
  | cons v rest ihrest =>
      intro i e he
      rw [leaves_arr_cons] at he
      rcases List.mem_append.mp he with h | h
      · obtain ⟨w, hw, hwe⟩ := List.mem_map.mp h
        exact ⟨i, Nat.le_refl i, w.1, by rw [← hwe]⟩
      · obtain ⟨j, hij, hp⟩ := ihrest (i + 1) e h
        exact ⟨j, by omega, hp⟩

theorem leaves_table_path_ok (ok : String → Bool) (kvs : List (String × Value))
    (hwf : wfTableP ok kvs = true)
    (ih : ∀ kv ∈ kvs, wfNamesP ok kv.2 = true → ∀ e ∈ leaves kv.2, PathOk ok e.1) :
    ∀ e ∈ leaves_table kvs, PathOk ok e.1 := by
  induction kvs with
  | nil => simp
  | cons kv rest ihrest =>
      obtain ⟨k, v⟩ := kv
      rw [wfTableP_cons] at hwf
      simp only [Bool.and_eq_true] at hwf
      intro e he
      rw [leaves_table_cons] at he
      rcases List.mem_append.mp he with h | h
      · obtain ⟨w, hw, hwe⟩ := List.mem_map.mp h
        have hpw := ih (k, v) (by simp) hwf.1.2 w hw
        have : e.1 = Seg.fld k :: w.1 := by rw [← hwe]
        rw [this]
        exact PathOk.cons hwf.1.1 hpw
      · exact ihrest hwf.2 (fun w hw => ih w (by simp [hw])) e h

theorem leaves_arr_path_ok (ok : String → Bool) (vs : List Value)
    (hwf : wfArrP ok vs = true)
    (ih : ∀ v ∈ vs, wfNamesP ok v = true → ∀ e ∈ leaves v, PathOk ok e.1) :
    ∀ (i : Nat), ∀ e ∈ leaves_arr i vs, PathOk ok e.1 := by
  induction vs with
  | nil => simp
  | cons v rest ihrest =>
      rw [wfArrP_cons] at hwf
      simp only [Bool.and_eq_true] at hwf
      intro i e he
      rw [leaves_arr_cons] at he
      rcases List.mem_append.mp he with h | h
      · obtain ⟨w, hw, hwe⟩ := List.mem_map.mp h
        have hpw := ih v (by simp) hwf.1 w hw
        have : e.1 = Seg.idx i :: w.1 := by rw [← hwe]
        rw [this]
        exact PathOk.cons trivial hpw
      · exact ihrest hwf.2 (fun w hw => ih w (by simp [hw])) (i + 1) e h

/-- Along the descended part of a well-named tree, every leaf path has
only clean field names. -/
theorem leaves_path_ok (ok : String → Bool) (v : Value) :
    wfNamesP ok v = true → ∀ e ∈ leaves v, PathOk ok e.1 := by
  induction v using Value.strongInd with
  | htab kvs ih =>
      intro hwf e he
      rw [leaves_table_eq] at he
      rw [wfNamesP_table_eq] at hwf
      simp only [Bool.and_eq_true] at hwf
      exact leaves_table_path_ok ok kvs hwf.2 ih e he
  | harr vs ih =>
      intro hwf e he
      rw [leaves_arr_eq] at he
      rw [wfNamesP_arr_eq] at hwf
      by_cases hc : first_is_table vs
      · rw [if_pos hc] at hwf
        rw [if_pos hc] at he
        exact leaves_arr_path_ok ok vs hwf ih 0 e he
      · rw [if_neg hc] at he
        simp at he
        subst he
        simp
  | hstr s =>
      intro _ e he
      simp at he
      subst he
      simp
  | hint n =>
      intro _ e he
      simp at he
      subst he
      simp
  | hflt l =>
      intro _ e he
      simp at he
      subst he
      simp
  | hbool b =>
      intro _ e he
      simp at he
      subst he
      simp
  | hdt l =>
      intro _ e he
      simp at he
      subst he
      simp

theorem leaves_table_allFld (kvs : List (String × Value))
    (hna : noArraysTable kvs = true)
    (ih : ∀ kv ∈ kvs, noArrays kv.2 = true → ∀ e ∈ leaves kv.2, allFld e.1 = true) :
    ∀ e ∈ leaves_table kvs, allFld e.1 = true := by
  induction kvs with
  | nil => simp
  | cons kv rest ihrest =>
      obtain ⟨k, v⟩ := kv
      rw [noArraysTable_cons] at hna
      simp only [Bool.and_eq_true] at hna
      intro e he
      rw [leaves_table_cons] at he
      rcases List.mem_append.mp he with h | h
      · obtain ⟨w, hw, hwe⟩ := List.mem_map.mp h
        have hfw := ih (k, v) (by simp) hna.1 w hw
        have : e.1 = Seg.fld k :: w.1 := by rw [← hwe]
        rw [this]
        simpa [allFld] using hfw
      · exact ihrest hna.2 (fun w hw => ih w (by simp [hw])) e h

/-- In an array-free tree, every leaf path is all-field. -/
theorem leaves_allFld (v : Value) :
    noArrays v = true → ∀ e ∈ leaves v, allFld e.1 = true := by
  induction v using Value.strongInd with
  | htab kvs ih =>
      intro hna e he
      rw [leaves_table_eq] at he
      rw [noArrays_table_eq] at hna
      exact leaves_table_allFld kvs hna ih e he
  | harr vs ih =>
      intro hna
      rw [noArrays_arr] at hna
      exact absurd hna (by simp)
  | hstr s =>
      intro _ e he
      simp at he
      subst he
      rfl
  | hint n =>
      intro _ e he
      simp at he
      subst he
      rfl
  | hflt l =>
      intro _ e he
      simp at he
      subst he
      rfl
  | hbool b =>
      intro _ e he
      simp at he
      subst he
      rfl
  | hdt l =>
      intro _ e he
      simp at he
      subst he
      rfl

end Tomldir

namespace Tomldir

theorem leaves_table_paths_nodup (kvs : List (String × Value))
    (hkeys : (kvs.map Prod.fst).Nodup)
    (ih : ∀ kv ∈ kvs, ((leaves kv.2).map Prod.fst).Nodup) :
    ((leaves_table kvs).map Prod.fst).Nodup := by
  induction kvs with
  | nil => simp
  | cons kv rest ihrest =>
      obtain ⟨k, v⟩ := kv
      rw [leaves_table_cons, List.map_append]
      simp only [List.map_cons, List.nodup_cons] at hkeys
      apply List.Nodup.append
      · rw [List.map_map]
        have hcomp : (Prod.fst ∘ fun e : List Seg × Value => (Seg.fld k :: e.1, e.2)) =
            ((fun p : List Seg => Seg.fld k :: p) ∘ Prod.fst) := rfl
        rw [hcomp, ← List.map_map]
        exact List.Nodup.map (fun a b hab => by simpa using hab) (ih (k, v) (by simp))
      · exact ihrest hkeys.2 (fun w hw => ih w (by simp [hw]))
      · intro a ha1 ha2
        rw [List.map_map] at ha1
        obtain ⟨w, _, hwa⟩ := List.mem_map.mp ha1
        obtain ⟨e, he, hea⟩ := List.mem_map.mp ha2
        obtain ⟨kv', hkv', p', hp1, _⟩ := leaves_table_shape rest e he
        have hheads : Seg.fld k :: w.1 = Seg.fld kv'.1 :: p' := by
          have h1 : Seg.fld k :: w.1 = a := hwa
          rw [h1, ← hea, hp1]
        have hk : k = kv'.1 := by
          simp only [List.cons.injEq, Seg.fld.injEq] at hheads
          exact hheads.1
        apply hkeys.1
        rw [hk]
        exact List.mem_map_of_mem Prod.fst hkv'

theorem leaves_arr_paths_nodup (vs : List Value)
    (ih : ∀ v ∈ vs, ((leaves v).map Prod.fst).Nodup) :
    ∀ i : Nat, ((leaves_arr i vs).map Prod.fst).Nodup := by
  induction vs with
  | nil => intro i; simp
  | cons v rest ihrest =>
      intro i
      rw [leaves_arr_cons, List.map_append]
      apply List.Nodup.append
      · rw [List.map_map]
        have hcomp : (Prod.fst ∘ fun e : List Seg × Value => (Seg.idx i :: e.1, e.2)) =
            ((fun p : List Seg => Seg.idx i :: p) ∘ Prod.fst) := rfl
        rw [hcomp, ← List.map_map]
        exact List.Nodup.map (fun a b hab => by simpa using hab) (ih v (by simp))
      · exact ihrest (fun w hw => ih w (by simp [hw])) (i + 1)
      · intro a ha1 ha2
        rw [List.map_map] at ha1
        obtain ⟨w, _, hwa⟩ := List.mem_map.mp ha1
        obtain ⟨e, he, hea⟩ := List.mem_map.mp ha2
        obtain ⟨j, hij, p', hp1⟩ := leaves_arr_shape rest (i + 1) e he
        have hheads : Seg.idx i :: w.1 = Seg.idx j :: p' := by
          have h1 : Seg.idx i :: w.1 = a := hwa
          rw [h1, ← hea, hp1]
        have hj : i = j := by
          simp only [List.cons.injEq, Seg.idx.injEq] at hheads
          exact hheads.1
        omega

/-- In a well-named tree, distinct leaves have distinct paths. -/
theorem leaves_paths_nodup (ok : String → Bool) (v : Value) :
    wfNamesP ok v = true → ((leaves v).map Prod.fst).Nodup := by
  induction v using Value.strongInd with
  | htab kvs ih =>
      intro hwf
      rw [wfNamesP_table_eq] at hwf
      simp only [Bool.and_eq_true, decide_eq_true_eq] at hwf
      rw [leaves_table_eq]
      exact leaves_table_paths_nodup kvs hwf.1
        (fun kv hkv => ih kv hkv ((wfTableP_mem ok kvs hwf.2 kv hkv).2))
  | harr vs ih =>
      intro hwf
      rw [wfNamesP_arr_eq] at hwf
      rw [leaves_arr_eq]
      by_cases hc : first_is_table vs
      · rw [if_pos hc] at hwf
        rw [if_pos hc]
        exact leaves_arr_paths_nodup vs (fun w hw => ih w hw (wfArrP_mem ok vs hwf w hw)) 0
      · rw [if_neg hc]
        simp
  | hstr s => intro _; simp
  | hint n => intro _; simp
  | hflt l => intro _; simp
  | hbool b => intro _; simp
  | hdt l => intro _; simp

/-- Inserting a fresh key appends the entry. -/
theorem insertKV_not_mem (s : List (String × Value)) (k : String) (v : Value)
    (h : k ∉ s.map Prod.fst) : insertKV s k v = s ++ [(k, v)] := by
  rw [insertKV, if_neg]
  intro hany
  obtain ⟨e, he, heq⟩ := List.any_eq_true.mp hany
  apply h
  have : e.1 = k := by simpa using heq
  rw [← this]
  exact List.mem_map_of_mem Prod.fst he

/-- Running duplicate-free insertions against a store with disjoint keys
appends them in order. -/
theorem applyInserts_fresh (l : List (String × Value)) :
    ∀ s : List (String × Value),
      (∀ k ∈ l.map Prod.fst, k ∉ s.map Prod.fst) → (l.map Prod.fst).Nodup →
      applyInserts s l = s ++ l := by
  induction l with
  | nil => intro s _ _; simp [applyInserts]
  | cons e l' ih =>
      intro s hdis hnd
      simp only [List.map_cons, List.nodup_cons] at hnd
      have h1 : applyInserts s (e :: l') = applyInserts (insertKV s e.1 e.2) l' := by
        simp [applyInserts]
      rw [h1, insertKV_not_mem s e.1 e.2 (hdis e.1 (by simp))]
      have h2 : applyInserts (s ++ [(e.1, e.2)]) l' = (s ++ [(e.1, e.2)]) ++ l' := by
        apply ih
        · intro k hk hk2
          simp only [List.map_append, List.mem_append] at hk2
          rcases hk2 with hk2 | hk2
          · exact hdis k (by simp [hk]) hk2
          · simp at hk2
            rw [hk2] at hk
            exact hnd.1 hk
        · exact hnd.2
      rw [h2]
      simp

/-- Flattening a tree with duplicate-free keys populates the store with
exactly those entries. -/
theorem applyInserts_nodup (l : List (String × Value))
    (h : (l.map Prod.fst).Nodup) : applyInserts [] l = l := by
  have := applyInserts_fresh l [] (by simp) h
  simpa using this

end Tomldir

namespace Tomldir

@[simp] theorem fldNames_nil : fldNames [] = [] := rfl

@[simp] theorem fldNames_fld (s : String) (ps : List Seg) :
    fldNames (.fld s :: ps) = s :: fldNames ps := rfl

@[simp] theorem fldNames_idx (n : Nat) (ps : List Seg) :
    fldNames (.idx n :: ps) = fldNames ps := rfl

theorem intercalate_go_append (s : String) (t : List String) :
    ∀ a x : String,
      String.intercalate.go (a ++ x) s t = a ++ String.intercalate.go x s t := by
  induction t with
  | nil => intro a x; simp [String.intercalate.go]
  | cons b t' ih =>
      intro a x
      simp only [String.intercalate.go]
      rw [show a ++ x ++ s ++ b = a ++ (x ++ s ++ b) by simp [String.append_assoc]]
      exact ih a (x ++ s ++ b)

theorem intercalate_cons_cons (s a b : String) (t : List String) :
    String.intercalate s (a :: b :: t) = a ++ s ++ String.intercalate s (b :: t) := by
  simp only [String.intercalate]
  simp only [String.intercalate.go]
  exact intercalate_go_append s t (a ++ s) b

theorem intercalate_single (s a : String) : String.intercalate s [a] = a := by
  simp [String.intercalate, String.intercalate.go]

/-- On all-field paths the full-path encoding is precisely the dot-joined
list of field names. -/
theorem dotJoined_eq_encHead (p : List Seg) : allFld p = true → dotJoined p = encHead p := by
  induction p with
  | nil => intro _; rfl
  | cons s ps ih =>
      intro hf
      cases s with
      | idx n => simp [allFld] at hf
      | fld a =>
          have hf' : allFld ps = true := by simpa [allFld] using hf
          cases ps with
          | nil =>
              rw [encHead_fld]
              simp [dotJoined, intercalate_single, String.append_empty]
          | cons s' ps' =>
              cases s' with
              | idx m => simp [allFld] at hf'
              | fld b =>
                  have ihval := ih hf'
                  rw [encHead_fld]
                  simp only [dotJoined, fldNames] at *
                  rw [intercalate_cons_cons, ihval, encHead_fld, encCont_fld]
                  simp [String.append_assoc]

@[simp] theorem noArrays_str (s : String) : noArrays (.str s) = true := by
  rw [noArrays] <;> exact fun _ h => nomatch h

@[simp] theorem noArrays_int (n : Int) : noArrays (.int n) = true := by
  rw [noArrays] <;> exact fun _ h => nomatch h

@[simp] theorem noArrays_float (l : String) : noArrays (.float l) = true := by
  rw [noArrays] <;> exact fun _ h => nomatch h

@[simp] theorem noArrays_bool (b : Bool) : noArrays (.bool b) = true := by
  rw [noArrays] <;> exact fun _ h => nomatch h

@[simp] theorem noArrays_datetime (l : String) : noArrays (.datetime l) = true := by
  rw [noArrays] <;> exact fun _ h => nomatch h

@[simp] theorem wfNamesP_str (ok : String → Bool) (s : String) :
    wfNamesP ok (.str s) = true := by
  rw [wfNamesP] <;> exact fun _ h => nomatch h

@[simp] theorem wfNamesP_int (ok : String → Bool) (n : Int) :
    wfNamesP ok (.int n) = true := by
  rw [wfNamesP] <;> exact fun _ h => nomatch h

@[simp] theorem wfNamesP_float (ok : String → Bool) (l : String) :
    wfNamesP ok (.float l) = true := by
  rw [wfNamesP] <;> exact fun _ h => nomatch h

@[simp] theorem wfNamesP_bool (ok : String → Bool) (b : Bool) :
    wfNamesP ok (.bool b) = true := by
  rw [wfNamesP] <;> exact fun _ h => nomatch h

@[simp] theorem wfNamesP_datetime (ok : String → Bool) (l : String) :
    wfNamesP ok (.datetime l) = true := by
  rw [wfNamesP] <;> exact fun _ h => nomatch h

end Tomldir

namespace Tomldir

/-- C4 (amended): for a tree whose root is a table and whose field names,
along tables and table-first arrays, are non-empty, unique per table and
free of the separator characters '.' and '[', the populated store is
exactly one entry per leaf position keyed by the path encoding, and those
keys are pairwise distinct — a bijection between store keys and leaf
positions. -/
theorem store_entries_biject_leaves (kvs : List (String × Value))
    (hwf : wfNamesP cleanName (.table kvs) = true) :
    applyInserts [] (flatten_value "" (.table kvs)) =
      (leaves (.table kvs)).map (fun e => (encHead e.1, e.2)) ∧
    ((leaves (.table kvs)).map (fun e => encHead e.1)).Nodup := by
  have hwf' := hwf
  rw [wfNamesP_table_eq] at hwf'
  simp only [Bool.and_eq_true, decide_eq_true_eq] at hwf'
  have hne : ∀ kv ∈ kvs, kv.1 ≠ "" := fun kv hkv =>
    cleanName_ne_empty kv.1 (wfTableP_mem cleanName kvs hwf'.2 kv hkv).1
  have hflat : flatten_value "" (.table kvs) =
      (leaves (.table kvs)).map (fun e => (encHead e.1, e.2)) := by
    rw [flatten_value_table_eq, leaves_table_eq]
    exact flatten_root_table_eq_leaves kvs hne
  have hpathok := leaves_path_ok cleanName (.table kvs) hwf
  have hpnodup := leaves_paths_nodup cleanName (.table kvs) hwf
  have hkeysnodup : ((leaves (.table kvs)).map (fun e => encHead e.1)).Nodup := by
    have h1 : (leaves (.table kvs)).map (fun e => encHead e.1) =
        ((leaves (.table kvs)).map Prod.fst).map encHead := by
      rw [List.map_map]
      rfl
    rw [h1]
    apply List.Nodup.map_on ?_ hpnodup
    intro p1 hp1 p2 hp2 heq
    obtain ⟨e1, he1, he1p⟩ := List.mem_map.mp hp1
    obtain ⟨e2, he2, he2p⟩ := List.mem_map.mp hp2
    have he1' := he1
    have he2' := he2
    rw [leaves_table_eq] at he1' he2'
    obtain ⟨kv1, _, q1, hq1, _⟩ := leaves_table_shape kvs e1 he1'
    obtain ⟨kv2, _, q2, hq2, _⟩ := leaves_table_shape kvs e2 he2'
    have hok1 := hpathok e1 he1
    have hok2 := hpathok e2 he2
    rw [hq1] at hok1
    rw [hq2] at hok2
    rw [← he1p, ← he2p, hq1, hq2] at heq
    rw [← he1p, ← he2p, hq1, hq2]
    exact encHead_inj_fld kv1.1 kv2.1 q1 q2 hok1.head_fld hok2.head_fld
      hok1.tail hok2.tail heq
  refine ⟨?_, hkeysnodup⟩
  rw [hflat]
  apply applyInserts_nodup
  rw [List.map_map]
  exact hkeysnodup

/-- C4 counterexample: with a field name containing a dot, the two leaf
positions of the tree encode to the same key, the store holds a single
entry, and no bijection between store keys and leaf positions exists. -/
theorem dotted_name_breaks_bijection :
    applyInserts [] (flatten_value ""
      (Value.table [("x.y", .int 3), ("x", .table [("y", .int 4)])])) =
      [("x.y", Value.int 4)] ∧
    (leaves (Value.table [("x.y", .int 3), ("x", .table [("y", .int 4)])])).length = 2 ∧
    (leaves (Value.table [("x.y", .int 3), ("x", .table [("y", .int 4)])])).map
      (fun e => encHead e.1) = ["x.y", "x.y"] := by
  have hflat : flatten_value ""
      (Value.table [("x.y", .int 3), ("x", .table [("y", .int 4)])]) =
      [("x.y", Value.int 3), ("x" ++ "." ++ "y", Value.int 4)] := by
    simp
  refine ⟨?_, ?_, ?_⟩
  · rw [hflat]
    have hxy : ("x" ++ "." ++ "y" : String) = "x.y" := by decide
    rw [hxy]
    rfl
  · simp
  · simp [encHead_fld, encCont_fld] <;> decide

/-- Witness for C4 (amended) at a document with a nested table, an
array of tables and a scalar. -/
theorem store_entries_biject_leaves_witness :
    applyInserts [] (flatten_value "" (.table
      [("users", .arr [.table [("name", .str "Alice")], .table [("name", .str "Bob")]]),
       ("port", .int 80)])) =
      (leaves (Value.table
        [("users", .arr [.table [("name", .str "Alice")], .table [("name", .str "Bob")]]),
         ("port", .int 80)])).map (fun e => (encHead e.1, e.2)) ∧
    ((leaves (Value.table
        [("users", .arr [.table [("name", .str "Alice")], .table [("name", .str "Bob")]]),
         ("port", .int 80)])).map (fun e => encHead e.1)).Nodup :=
  store_entries_biject_leaves
    [("users", .arr [.table [("name", .str "Alice")], .table [("name", .str "Bob")]]),
     ("port", .int 80)]
    (by simp [first_is_table, Value.is_table, cleanName] <;> decide)

end Tomldir

namespace Tomldir

/-- C1 (amended): for an array-free tree whose root is a table and whose
field names are non-empty, dot-free and unique per table, the populated
store has exactly one entry per leaf scalar, and each key is the
dot-joined path of field names from the root to that leaf. -/
theorem table_tree_store_is_dot_joined_leaves (kvs : List (String × Value))
    (hna : noArrays (.table kvs) = true)
    (hwf : wfNamesP dotFree (.table kvs) = true) :
    applyInserts [] (flatten_value "" (.table kvs)) =
      (leaves (.table kvs)).map (fun e => (dotJoined e.1, e.2)) ∧
    ((leaves (.table kvs)).map (fun e => dotJoined e.1)).Nodup := by
  have hwf' := hwf
  rw [wfNamesP_table_eq] at hwf'
  simp only [Bool.and_eq_true, decide_eq_true_eq] at hwf'
  have hne : ∀ kv ∈ kvs, kv.1 ≠ "" := fun kv hkv =>
    dotFree_ne_empty kv.1 (wfTableP_mem dotFree kvs hwf'.2 kv hkv).1
  have hflat : flatten_value "" (.table kvs) =
      (leaves (.table kvs)).map (fun e => (encHead e.1, e.2)) := by
    rw [flatten_value_table_eq, leaves_table_eq]
    exact flatten_root_table_eq_leaves kvs hne
  have hAllFld := leaves_allFld (.table kvs) hna
  have hpathok := leaves_path_ok dotFree (.table kvs) hwf
  have hpnodup := leaves_paths_nodup dotFree (.table kvs) hwf
  have hmapped : (leaves (.table kvs)).map (fun e => (dotJoined e.1, e.2)) =
      (leaves (.table kvs)).map (fun e => (encHead e.1, e.2)) :=
    List.map_congr_left (fun e he => by rw [dotJoined_eq_encHead e.1 (hAllFld e he)])
  have hmapped1 : (leaves (.table kvs)).map (fun e => dotJoined e.1) =
      (leaves (.table kvs)).map (fun e => encHead e.1) :=
    List.map_congr_left (fun e he => by rw [dotJoined_eq_encHead e.1 (hAllFld e he)])
  have hkeysnodup : ((leaves (.table kvs)).map (fun e => encHead e.1)).Nodup := by
    have h1 : (leaves (.table kvs)).map (fun e => encHead e.1) =
        ((leaves (.table kvs)).map Prod.fst).map encHead := by
      rw [List.map_map]
      rfl
    rw [h1]
    apply List.Nodup.map_on ?_ hpnodup
    intro p1 hp1 p2 hp2 heq
    obtain ⟨e1, he1, he1p⟩ := List.mem_map.mp hp1
    obtain ⟨e2, he2, he2p⟩ := List.mem_map.mp hp2
    have he1' := he1
    have he2' := he2
    rw [leaves_table_eq] at he1' he2'
    obtain ⟨kv1, _, q1, hq1, _⟩ := leaves_table_shape kvs e1 he1'
    obtain ⟨kv2, _, q2, hq2, _⟩ := leaves_table_shape kvs e2 he2'
    have hok1 := hpathok e1 he1
    have hok2 := hpathok e2 he2
    have haf1 := hAllFld e1 he1
    have haf2 := hAllFld e2 he2
    rw [hq1] at hok1 haf1
    rw [hq2] at hok2 haf2
    rw [← he1p, ← he2p, hq1, hq2] at heq
    rw [← he1p, ← he2p, hq1, hq2]
    exact encHead_inj_dot kv1.1 kv2.1 q1 q2 hok1.head_fld hok2.head_fld
      (by simpa [allFld] using haf1) (by simpa [allFld] using haf2)
      hok1.tail hok2.tail heq
  refine ⟨?_, by rw [hmapped1]; exact hkeysnodup⟩
  rw [hflat, ← hmapped]
  rw [hmapped]
  apply applyInserts_nodup
  rw [List.map_map]
  exact hkeysnodup

/-- C1 counterexample: a field name containing a dot makes two distinct
leaf scalars collapse to the single key "a.b", so the key set does not
have one entry per leaf scalar even though the tree has no arrays. -/
theorem dotted_name_collapses_keys :
    noArrays (Value.table [("a.b", .int 1), ("a", .table [("b", .int 2)])]) = true ∧
    applyInserts [] (flatten_value ""
      (Value.table [("a.b", .int 1), ("a", .table [("b", .int 2)])])) =
      [("a.b", Value.int 2)] ∧
    (leaves (Value.table [("a.b", .int 1), ("a", .table [("b", .int 2)])])).length = 2 := by
  have hflat : flatten_value ""
      (Value.table [("a.b", .int 1), ("a", .table [("b", .int 2)])]) =
      [("a.b", Value.int 1), ("a" ++ "." ++ "b", Value.int 2)] := by
    simp
  refine ⟨by simp, ?_, by simp⟩
  rw [hflat]
  have hab : ("a" ++ "." ++ "b" : String) = "a.b" := by decide
  rw [hab]
  rfl

/-- Witness for C1 (amended) at the spec's server/title document shape. -/
theorem table_tree_store_is_dot_joined_leaves_witness :
    applyInserts [] (flatten_value "" (.table
      [("server", .table [("host", .str "localhost"), ("port", .int 80)]),
       ("title", .str "T")])) =
      (leaves (Value.table
        [("server", .table [("host", .str "localhost"), ("port", .int 80)]),
         ("title", .str "T")])).map (fun e => (dotJoined e.1, e.2)) ∧
    ((leaves (Value.table
        [("server", .table [("host", .str "localhost"), ("port", .int 80)]),
         ("title", .str "T")])).map (fun e => dotJoined e.1)).Nodup :=
  table_tree_store_is_dot_joined_leaves
    [("server", .table [("host", .str "localhost"), ("port", .int 80)]),
     ("title", .str "T")]
    (by simp)
    (by simp [dotFree] <;> decide)

end Tomldir
